import Mathlib

/-!
Verification of the document-to-structured-record extraction engine of
`generate_repo_info.py` (Mycroft skill-repo tools).

The Python source is shallowly embedded below.  Strings are modelled by
Lean `String` (a structure over `List Char`); the character-level work is
done on `List Char`.  Python regular expressions are translated to the
explicit character transformations they perform on the inputs this program
feeds them.  `difflib.SequenceMatcher.ratio` is implemented faithfully
(longest matching block, ties broken by the earliest start in the first
string and then in the second, applied recursively to both remainders);
its value is modelled as a rational number, which agrees with the float
comparisons performed by the source for the short strings involved.
-/

set_option maxRecDepth 40000

namespace RepoInfo

/-- Character 34, the double quote. -/
def quoteChar : Char := Char.ofNat 34

/-- Character 39, the apostrophe. -/
def apoChar : Char := Char.ofNat 39

/-- Character 96, the backward tick used for inline code in markdown. -/
def btickChar : Char := Char.ofNat 96

/-- Whitespace in the sense of Python `str.strip()` (ASCII model). -/
def isPyWs (c : Char) : Bool :=
  c = ' ' || c = '\t' || c = '\n' || c = '\r' || c = Char.ofNat 11 || c = Char.ofNat 12

/-- Drop the longest suffix whose characters all satisfy `p`. -/
def dropRightWhile (p : Char → Bool) (l : List Char) : List Char :=
  (l.reverse.dropWhile p).reverse

/-- Python `str.strip(chars)`: remove characters satisfying `p` from both ends. -/
def pyStrip (p : Char → Bool) (l : List Char) : List Char :=
  dropRightWhile p (l.dropWhile p)

/-- Python `str.strip()` with no argument. -/
def pyStripWs (l : List Char) : List Char := pyStrip isPyWs l

/-- Python `str.split(chr(10))`: split on every newline, keeping empty parts. -/
def splitNl : List Char → List (List Char)
  | [] => [[]]
  | c :: rest =>
    if c = '\n' then [] :: splitNl rest
    else
      match splitNl rest with
      | [] => [[c]]
      | l :: ls => (c :: l) :: ls

/-- Is `p` a prefix of `l`? (model of Python `str.startswith`). -/
def startsWithL : List Char → List Char → Bool
  | _, [] => true
  | [], _ :: _ => false
  | a :: as, b :: bs => a = b && startsWithL as bs

/-! ### Whitespace Normalizer (`parse_whitespace`)

`parse_whitespace` applies three `re.sub` passes in order:
a newline with no adjacent newline becomes a space, then runs of newlines
collapse to one newline, then runs of spaces collapse to one space. -/

/-- First pass: replace each newline whose original neighbours are not
newlines by a space.  `prev` is the character preceding the current list in
the original input. -/
def nlToSpace (prev : Option Char) : List Char → List Char
  | [] => []
  | c :: rest =>
    (if c = '\n' ∧ prev ≠ some '\n' ∧ rest.head? ≠ some '\n' then ' ' else c)
      :: nlToSpace (some c) rest

/-- Collapse every run of two or more copies of `c` into a single copy
(model of `re.sub(c+, c, s)`). -/
def collapseRuns (c : Char) : List Char → List Char
  | [] => []
  | [a] => [a]
  | a :: b :: rest =>
    if a = c ∧ b = c then collapseRuns c (b :: rest)
    else a :: collapseRuns c (b :: rest)

/-- The Whitespace Normalizer on character lists. -/
def parse_whitespaceL (l : List Char) : List Char :=
  collapseRuns ' ' (collapseRuns '\n' (nlToSpace none l))

/-- `parse_whitespace` from the source: soft line breaks become spaces,
paragraph breaks collapse to one newline, space runs collapse to one space. -/
def parse_whitespace (s : String) : String :=
  ⟨parse_whitespaceL s.data⟩

/-- No two adjacent occurrences of `c` in the list. -/
def noAdjB (c : Char) : List Char → Bool
  | a :: b :: rest => !(a = c && b = c) && noAdjB c (b :: rest)
  | _ => true

/-! ### Sentence Formatter (`caps`, `format_sent`) -/

/-- Python `s[:1].upper() + s[1:]` on the underlying characters. -/
def capsL : List Char → List Char
  | [] => []
  | c :: rest => Char.toUpper c :: rest

/-- `caps` from the source: capitalize the first letter without lowercasing
the rest. -/
def caps (s : String) : String := ⟨capsL s.data⟩

/-- `format_sent` on the underlying characters: capitalize, then append a
period when the final character is alphanumeric. -/
def format_sentL (l : List Char) : List Char :=
  let l2 := capsL l
  match l2.getLast? with
  | some c => if c.isAlphanum then l2 ++ ['.'] else l2
  | none => l2

/-- `format_sent` from the source. -/
def format_sent (s : String) : String := ⟨format_sentL s.data⟩

/-! ### Similarity ratio (`compare`, via `difflib.SequenceMatcher`)

`SequenceMatcher.ratio` (no junk for the short strings used here) is
`2 * M / T` where `T` is the sum of the lengths and `M` is the total size of
the matching blocks: the longest matching block (ties broken by the earliest
start in the first string, then in the second) is found and the procedure
recurses on the pieces to its left and to its right.  The recursion depth is
bounded by the total length, which is passed as structural fuel; every
recursive call strictly decreases it, so the fuel never runs out. -/

/-- Length of the longest common prefix. -/
def lcp : List Char → List Char → Nat
  | a :: as, b :: bs => if a = b then lcp as bs + 1 else 0
  | _, _ => 0

/-- The longest matching block of `a` and `b`, as (start in `a`, start in
`b`, size); among maximal blocks the one with the smallest start in `a`,
then the smallest start in `b`, exactly as `find_longest_match` (a new best
is recorded only on a strictly larger size, scanning positions in
increasing order). -/
def findLongest (a b : List Char) : Nat × Nat × Nat :=
  (List.range a.length).foldl
    (fun best i =>
      (List.range b.length).foldl
        (fun best j =>
          let k := lcp (a.drop i) (b.drop j)
          if best.2.2 < k then (i, j, k) else best)
        best)
    (0, 0, 0)

/-- Total size of all matching blocks (`get_matching_blocks`). -/
def matchSum : Nat → List Char → List Char → Nat
  | 0, _, _ => 0
  | fuel + 1, a, b =>
    let r := findLongest a b
    if r.2.2 = 0 then 0
    else
      r.2.2 + matchSum fuel (a.take r.1) (b.take r.2.1) +
        matchSum fuel (a.drop (r.1 + r.2.2)) (b.drop (r.2.1 + r.2.2))

/-- `compare` from the source: the `SequenceMatcher` ratio of the two
lowercased strings, as a rational number (`2 * M / T`, via `mkRat` so that
the value evaluates in the kernel). -/
def compare (a b : String) : ℚ :=
  let la := a.data.map Char.toLower
  let lb := b.data.map Char.toLower
  if la.length + lb.length = 0 then 1
  else mkRat (2 * matchSum (la.length + lb.length) la lb) (la.length + lb.length)

/-! ### Title Resolver (`norm`, `find_title_info`) -/

/-- `norm` from the source: lowercase, then replace hyphens by spaces. -/
def norm (x : String) : String :=
  ⟨(x.data.map Char.toLower).map (fun c => if c = '-' then ' ' else c)⟩

/-- Python `str.title()` (ASCII model): a letter after a non-letter is
uppercased, a letter after a letter is lowercased, other characters pass
through.  The boolean argument records whether the previous character was a
letter. -/
def pyTitleAux : Bool → List Char → List Char
  | _, [] => []
  | prevAlpha, c :: rest =>
    (if c.isAlpha then (if prevAlpha then c.toLower else c.toUpper) else c)
      :: pyTitleAux c.isAlpha rest

/-- Python `str.title()`. -/
def pyTitle (s : String) : String := ⟨pyTitleAux false s.data⟩

/-! ### Ordered mapping (model of `collections.OrderedDict`)

The Section Map is an ordered association list with unique keys.
`odSet m k v` models `m[k] = v`: an existing key keeps its position and gets
the new value, a new key is appended at the end.  `odPop m k` models
`m.pop(k)`. -/

/-- `m[k] = v` on an ordered mapping. -/
def odSet (m : List (String × String)) (k v : String) : List (String × String) :=
  match m with
  | [] => [(k, v)]
  | (k2, v2) :: rest => if k2 = k then (k, v) :: rest else (k2, v2) :: odSet rest k v

/-- `m[k]` with a default for an absent key (the source only reads keys that
are present). -/
def odGetD (m : List (String × String)) (k d : String) : String :=
  match m with
  | [] => d
  | (k2, v2) :: rest => if k2 = k then v2 else odGetD rest k d

/-- `m[k] += v` on an ordered mapping. -/
def odAppendVal (m : List (String × String)) (k v : String) : List (String × String) :=
  odSet m k (odGetD m k "" ++ v)

/-- `m.pop(k)`: the removed value and the remaining mapping. -/
def odPop (m : List (String × String)) (k : String) :
    Option (String × List (String × String)) :=
  match m with
  | [] => none
  | (k2, v2) :: rest =>
    if k2 = k then some (v2, rest)
    else
      match odPop rest k with
      | none => none
      | some (v, r) => some (v, (k2, v2) :: r)

/-- Move the empty-key entry to the end of the mapping (the source pops the
empty key and immediately reassigns it, which appends it at the end). -/
def odShift (m : List (String × String)) : List (String × String) :=
  match odPop m "" with
  | none => m
  | some (v, r) => r ++ [("", v)]

/-! ### Section Splitter (`extract_sections`) -/

/-- One pass over the (already split) lines of the document, carrying the
current heading `last` and the mapping built so far. -/
def extractLoop : List (List Char) → String → List (String × String) →
    List (String × String)
  | [], _, m => m
  | l :: ls, last, m =>
    let l2 := pyStripWs l
    if l2.head? = some '#' then
      let sec : String := ⟨pyStrip (fun c => c = '#' || c = ' ') l2⟩
      extractLoop ls sec (odSet m sec "")
    else
      extractLoop ls last (odAppendVal m last ⟨'\n' :: l2⟩)

/-- Strip surrounding whitespace from every accumulated body. -/
def stripVals (m : List (String × String)) : List (String × String) :=
  m.map (fun p => (p.1, ⟨pyStripWs p.2.data⟩))

/-- `extract_sections` from the source: split the document into an ordered
mapping from heading label to body text, then move the preamble (empty
label) entry to the end. -/
def extract_sections (readme_content : String) : List (String × String) :=
  odShift (stripVals (extractLoop (splitNl readme_content.data) "" [("", "")]))

/-! ### Fuzzy Section Resolver (`find_secton`) -/

/-- `find_secton` from the source: pair every heading label with its
similarity ratio to `name`, take the maximum (Python `max` keeps the first
of several maximal elements), and return the body of the winning heading
unless its ratio is strictly below `min_conf`. -/
def find_secton (name : String) (sections : List (String × String))
    (min_conf : ℚ) : Option String :=
  match sections.map (fun p => (p.1, compare p.1 name)) with
  | [] => none
  | x :: xs =>
    let best := xs.foldl (fun b y => if b.2 < y.2 then y else b) x
    if best.2 < min_conf then none else some (odGetD sections best.1 "")

/-- `find_title_info` from the source: if the first key of the Section Map
normalizes close enough (ratio at least three tenths) to the normalized
target name, the document is self-titled; otherwise the target name is
title-cased and the preamble body is used.  (On an empty mapping the Python
original raises; that case is never reached by the program.) -/
def find_title_info (sections : List (String × String)) (skill_name : String) :
    String × String :=
  match sections with
  | [] => ("", "")
  | (k, v) :: _ =>
    if mkRat 3 10 ≤ compare (norm k) (norm skill_name) then (caps k, v)
    else (pyTitle (norm skill_name), odGetD sections "" "")

/-! ### Example Extractor / Normalizer (`parse_example`, `find_examples`) -/

/-- Does the lowercased list start with the given literal prefix? -/
def lowerStartsWith (l p : List Char) : Bool :=
  startsWithL (l.map Char.toLower) p

/-- Strip the wake-word prefixes, in the order of the source loop; each
branch slices the original characters by the length of the prefix. -/
def stripWake (l : List Char) : List Char :=
  let l1 := if lowerStartsWith l "hey mycroft".data
    then l.drop "hey mycroft".data.length else l
  let l2 := if lowerStartsWith l1 "mycroft".data
    then l1.drop "mycroft".data.length else l1
  if lowerStartsWith l2 "hey-mycroft".data
    then l2.drop "hey-mycroft".data.length else l2

/-- The four interrogative stems. -/
def questionWords : List (List Char) :=
  ["who".data, "what".data, "when".data, "where".data]

/-- The suffix list exactly as the source spells it: the fifth entry is the
single string obtained by the adjacent literals `d` and `re`-with-apostrophe
(the source is missing a comma between them, so there is no bare `d` entry
and no apostrophe-`re` entry). -/
def questionSuffixes : List (List Char) :=
  [[apoChar, 's'], ['s'], [], [apoChar, 'd'], ['d', apoChar, 'r', 'e'], ['r', 'e']]

/-- The question test of `parse_example`: does the candidate start with a
stem plus suffix plus space, case-insensitively? -/
def isQuestionStart (l : List Char) : Bool :=
  questionWords.any fun w =>
    questionSuffixes.any fun suf => lowerStartsWith l (w ++ suf ++ [' '])

/-- `parse_example` from the source: strip surrounding whitespace and quote
characters, normalize whitespace, truncate at a remaining quote or tick,
strip wake words and leftover punctuation, infer a question mark, and format
as a sentence. -/
def parse_example (ex : String) : String :=
  let e1 := pyStrip
    (fun c => c = ' ' || c = '\n' || c = quoteChar || c = apoChar || c = btickChar)
    ex.data
  let e2 := parse_whitespaceL e1
  let e3 := e2.takeWhile fun c => !(c = quoteChar || c = btickChar)
  let e4 := stripWake e3
  let e5 := pyStrip (fun c => c = ' ' || c = ',') e4
  let e6 := if isQuestionStart e5
    then dropRightWhile (fun c => c = '?' || c = '.') e5 ++ ['?'] else e5
  ⟨format_sentL e6⟩

/-- Python `a or b` for an optional string: `None` and the empty string are
both falsy. -/
def pyOrS (a : Option String) (b : String) : String :=
  match a with
  | none => b
  | some s => if s = "" then b else s

/-- The characters after the first bullet marker of a line, if any. -/
def afterBullet : List Char → Option (List Char)
  | [] => none
  | c :: rest => if c = '-' || c = '*' then some rest else afterBullet rest

/-- The matches contributed by one line to
`re.findall(lookbehind bullet, dot star, MULTILINE)`: the characters after
the first bullet marker to the end of the line and, when that match is
non-empty and the line itself ends in a bullet marker, one extra empty match
found at the end of the line. -/
def lineMatches (l : List Char) : List (List Char) :=
  match afterBullet l with
  | none => []
  | some rest =>
    if rest.isEmpty then [rest]
    else if rest.getLastD ' ' = '-' || rest.getLastD ' ' = '*' then [rest, []]
    else [rest]

/-- `find_examples` from the source: the bulleted lines of the `examples`
section, falling back to `usage`, falling back to nothing. -/
def find_examples (sections : List (String × String)) : List String :=
  let body := pyOrS (find_secton "examples" sections (mkRat 1 2))
    (pyOrS (find_secton "usage" sections (mkRat 1 2)) "")
  ((splitNl body.data).flatMap lineMatches).map fun l => ⟨l⟩

end RepoInfo

namespace RepoInfo

/-! ### Lemmas about the Whitespace Normalizer -/

theorem nlToSpace_of_not_mem (l : List Char) (h : '\n' ∉ l) :
    ∀ prev, nlToSpace prev l = l := by
  induction l with
  | nil => intro prev; rfl
  | cons c rest ih =>
    intro prev
    have hc : c ≠ '\n' := by
      intro hc; exact h (hc ▸ List.mem_cons_self c rest)
    have hr : '\n' ∉ rest := fun hm => h (List.mem_cons_of_mem c hm)
    simp only [nlToSpace, ih hr]
    rw [if_neg]
    intro hcontra
    exact hc hcontra.1

theorem collapseRuns_cons (c a : Char) (rest : List Char) :
    collapseRuns c (a :: rest) =
      if a = c ∧ rest.head? = some c then collapseRuns c rest
      else a :: collapseRuns c rest := by
  cases rest with
  | nil => simp [collapseRuns]
  | cons b r => simp [collapseRuns, List.head?]

theorem mem_collapseRuns (c x : Char) (l : List Char)
    (h : x ∈ collapseRuns c l) : x ∈ l := by
  induction l with
  | nil => simp [collapseRuns] at h
  | cons a rest ih =>
    rw [collapseRuns_cons] at h
    by_cases hcond : a = c ∧ rest.head? = some c
    · rw [if_pos hcond] at h
      exact List.mem_cons_of_mem a (ih h)
    · rw [if_neg hcond] at h
      rcases List.mem_cons.mp h with h1 | h2
      · exact h1 ▸ List.mem_cons_self a rest
      · exact List.mem_cons_of_mem a (ih h2)

theorem collapseRuns_of_not_mem (c : Char) (l : List Char) (h : c ∉ l) :
    collapseRuns c l = l := by
  induction l with
  | nil => rfl
  | cons a rest ih =>
    have ha : a ≠ c := by
      intro hc; exact h (hc ▸ List.mem_cons_self a rest)
    have hr : c ∉ rest := fun hm => h (List.mem_cons_of_mem a hm)
    rw [collapseRuns_cons, if_neg, ih hr]
    intro hcontra
    exact ha hcontra.1

theorem head_collapseRuns_of_ne (c b : Char) (rest : List Char) (h : b ≠ c) :
    ∃ t, collapseRuns c (b :: rest) = b :: t := by
  rw [collapseRuns_cons, if_neg]
  · exact ⟨collapseRuns c rest, rfl⟩
  · intro hcontra; exact h hcontra.1

theorem noAdjB_collapseRuns (c : Char) (l : List Char) :
    noAdjB c (collapseRuns c l) = true := by
  induction l with
  | nil => rfl
  | cons a rest ih =>
    rw [collapseRuns_cons]
    by_cases hcond : a = c ∧ rest.head? = some c
    · rw [if_pos hcond]; exact ih
    · rw [if_neg hcond]
      by_cases ha : a = c
      · have hb : rest.head? ≠ some c := fun hh => hcond ⟨ha, hh⟩
        cases rest with
        | nil => simp [collapseRuns, noAdjB]
        | cons b r =>
          have hbc : b ≠ c := by
            intro hbc
            exact hb (by simp [List.head?, hbc])
          obtain ⟨t, ht⟩ := head_collapseRuns_of_ne c b r hbc
          rw [ht]
          have := ih
          rw [ht] at this
          simp [noAdjB, this, hbc]
      · cases hcr : collapseRuns c rest with
        | nil => simp [noAdjB]
        | cons b t =>
          have := ih
          rw [hcr] at this
          simp [noAdjB, this, ha]

theorem collapseRuns_of_noAdjB (c : Char) (l : List Char)
    (h : noAdjB c l = true) : collapseRuns c l = l := by
  induction l with
  | nil => rfl
  | cons a rest ih =>
    cases rest with
    | nil => rfl
    | cons b r =>
      simp only [noAdjB, Bool.and_eq_true, Bool.not_eq_true'] at h
      have hnot : ¬(a = c ∧ b = c) := by
        intro ⟨h1, h2⟩
        simp [h1, h2] at h
      have htail : noAdjB c (b :: r) = true := h.2
      simp only [collapseRuns, if_neg hnot]
      rw [ih htail]

theorem collapseRuns_idem (c : Char) (l : List Char) :
    collapseRuns c (collapseRuns c l) = collapseRuns c l :=
  collapseRuns_of_noAdjB c _ (noAdjB_collapseRuns c l)

/-- If `l` has no two adjacent newlines, and additionally the head of `l` is
not a newline whenever `prev` is one, then the first pass removes every
newline. -/
theorem not_mem_nlToSpace (l : List Char) :
    ∀ prev, noAdjB '\n' l = true →
      (prev = some '\n' → l.head? ≠ some '\n') →
      '\n' ∉ nlToSpace prev l := by
  induction l with
  | nil => intro prev _ _ h; simp [nlToSpace] at h
  | cons c rest ih =>
    intro prev hadj hprev hmem
    simp only [nlToSpace] at hmem
    by_cases hc : c = '\n'
    · have h1 : prev ≠ some '\n' := by
        intro hp
        exact (hprev hp) (by simp [List.head?, hc])
      have h2 : rest.head? ≠ some '\n' := by
        cases rest with
        | nil => simp
        | cons b r =>
          simp only [noAdjB, Bool.and_eq_true, Bool.not_eq_true'] at hadj
          intro hh
          simp only [List.head?, Option.some.injEq] at hh
          have : (decide (c = '\n') && decide (b = '\n')) = true := by
            simp [hc, hh]
          rw [this] at hadj
          simp at hadj
      rw [if_pos ⟨hc, h1, h2⟩] at hmem
      rcases List.mem_cons.mp hmem with h | h
      · exact absurd h.symm (by decide)
      · have hadj' : noAdjB '\n' rest = true := by
          cases rest with
          | nil => rfl
          | cons b r =>
            simp only [noAdjB, Bool.and_eq_true] at hadj
            exact hadj.2
        have hnext : some c = some '\n' → rest.head? ≠ some '\n' := fun _ => h2
        exact ih (some c) hadj' hnext h
    · rw [if_neg (by intro hco; exact hc hco.1)] at hmem
      rcases List.mem_cons.mp hmem with h | h
      · exact hc h.symm
      · have hadj' : noAdjB '\n' rest = true := by
          cases rest with
          | nil => rfl
          | cons b r =>
            simp only [noAdjB, Bool.and_eq_true] at hadj
            exact hadj.2
        have hnext : some c = some '\n' → rest.head? ≠ some '\n' := by
          intro hcc
          exact absurd (Option.some.injEq c '\n' ▸ hcc) (by simpa using hc)
        exact ih (some c) hadj' hnext h

/-- C1, counterexample.  The claim that `parse_whitespace` is idempotent on
every string fails on `"a\n\nb"`: one application yields `"a\nb"`, a second
application turns the surviving newline into a space, yielding `"a b"`. -/
theorem parse_whitespace_not_idempotent :
    parse_whitespace (parse_whitespace "a\n\nb") ≠ parse_whitespace "a\n\nb" := by
  decide

/-- C1 (amended): the Whitespace Normalizer is idempotent on every input
that contains no two consecutive newline characters.  (On inputs with a
paragraph break the first application collapses it to a single newline,
which a second application replaces with a space, as the counterexample
shows.) -/
theorem parse_whitespace_idempotent_of_noAdj (s : String)
    (h : noAdjB '\n' s.data = true) :
    parse_whitespace (parse_whitespace s) = parse_whitespace s := by
  have h0 : parse_whitespace s = ⟨collapseRuns ' ' (nlToSpace none s.data)⟩ := by
    have hnn : '\n' ∉ nlToSpace none s.data :=
      not_mem_nlToSpace s.data none h (by intro hcontra; cases hcontra)
    simp only [parse_whitespace, parse_whitespaceL]
    rw [collapseRuns_of_not_mem '\n' _ hnn]
  set L := collapseRuns ' ' (nlToSpace none s.data) with hL
  have hLnn : '\n' ∉ L := by
    intro hmem
    have h1 : '\n' ∈ nlToSpace none s.data := mem_collapseRuns ' ' '\n' _ hmem
    exact not_mem_nlToSpace s.data none h (by intro hcontra; cases hcontra) h1
  rw [h0]
  simp only [parse_whitespace, parse_whitespaceL]
  rw [nlToSpace_of_not_mem L hLnn none, collapseRuns_of_not_mem '\n' L hLnn, hL,
    collapseRuns_idem]

/-- C1, witness for the amended idempotence theorem at the concrete input
`"a\nb"` (a soft-wrapped line, no paragraph break). -/
theorem parse_whitespace_idempotent_witness :
    noAdjB '\n' ("a\nb").data = true ∧
      parse_whitespace (parse_whitespace "a\nb") = parse_whitespace "a\nb" :=
  ⟨by decide, parse_whitespace_idempotent_of_noAdj "a\nb" (by decide)⟩

theorem matchSum_nil_left (fuel : Nat) (l : List Char) :
    matchSum fuel [] l = 0 := by
  cases fuel with
  | zero => rfl
  | succ n => simp [matchSum, findLongest]

theorem compare_empty_left (name : String) (h : name ≠ "") :
    compare "" name = 0 := by
  have hdata : name.data ≠ [] := by
    intro hd
    apply h
    cases name
    simp at hd
    rw [hd]
  have hlen : (name.data.map Char.toLower).length ≠ 0 := by
    rw [List.length_map]
    exact fun hl => hdata (List.length_eq_zero.mp hl)
  have h0 : ("" : String).data = [] := rfl
  simp only [compare, h0, List.map_nil, List.length_nil, Nat.zero_add]
  rw [if_neg hlen, matchSum_nil_left]
  simp [Rat.mkRat_eq_div]

/-- Python `max(pairs, key=second)` splits the list around the first element
whose value is maximal: everything before it is strictly smaller, everything
after it is at most as large. -/
theorem argmax_split (f : String × String → ℚ) (xs : List (String × String)) :
    ∀ x : String × String,
      ∃ pre e post,
        x :: xs = pre ++ e :: post ∧
        (∀ p ∈ pre, f p < f e) ∧
        (∀ p ∈ post, f p ≤ f e) ∧
        (xs.map (fun p => (p.1, f p))).foldl
            (fun b y => if b.2 < y.2 then y else b) (x.1, f x) = (e.1, f e) := by
  induction xs with
  | nil =>
    intro x
    exact ⟨[], x, [], rfl, by simp, by simp, rfl⟩
  | cons y ys ih =>
    intro x
    by_cases h : f x < f y
    · obtain ⟨pre, e, post, hsplit, hpre, hpost, hfold⟩ := ih y
      have hxe : f x < f e := by
        cases pre with
        | nil =>
          rw [List.nil_append] at hsplit
          have hy : y = e := (List.cons_eq_cons.mp hsplit).1
          exact hy ▸ h
        | cons p ps =>
          rw [List.cons_append] at hsplit
          have hy : y = p := (List.cons_eq_cons.mp hsplit).1
          have hye : f y < f e := hy ▸ hpre p (List.mem_cons_self p ps)
          exact h.trans hye
      refine ⟨x :: pre, e, post, by rw [List.cons_append, ← hsplit], ?_, hpost, ?_⟩
      · intro p hp
        rcases List.mem_cons.mp hp with hp | hp
        · exact hp ▸ hxe
        · exact hpre p hp
      · simp only [List.map_cons, List.foldl_cons, if_pos h]
        exact hfold
    · obtain ⟨pre, e, post, hsplit, hpre, hpost, hfold⟩ := ih x
      cases pre with
      | nil =>
        rw [List.nil_append] at hsplit
        have he : x = e := (List.cons_eq_cons.mp hsplit).1
        have hp : ys = post := (List.cons_eq_cons.mp hsplit).2
        refine ⟨[], x, y :: ys, rfl, by simp, ?_, ?_⟩
        · intro p hpm
          rcases List.mem_cons.mp hpm with hpm | hpm
          · exact hpm ▸ le_of_not_lt h
          · have := hpost p (hp ▸ hpm)
            rwa [← he] at this
        · simp only [List.map_cons, List.foldl_cons, if_neg h]
          rw [hfold, ← he]
      | cons p ps =>
        rw [List.cons_append] at hsplit
        have hp1 : x = p := (List.cons_eq_cons.mp hsplit).1
        have hp2 : ys = ps ++ e :: post := (List.cons_eq_cons.mp hsplit).2
        have hxe : f x < f e := hp1 ▸ hpre p (List.mem_cons_self p ps)
        refine ⟨x :: y :: ps, e, post,
          by rw [List.cons_append, List.cons_append, ← hp2], ?_, hpost, ?_⟩
        · intro q hq
          rcases List.mem_cons.mp hq with hq | hq
          · exact hq ▸ hxe
          · rcases List.mem_cons.mp hq with hq | hq
            · exact hq ▸ (le_of_not_lt h).trans_lt hxe
            · exact hpre q (hp1 ▸ List.mem_cons_of_mem p hq)
        · simp only [List.map_cons, List.foldl_cons, if_neg h]
          exact hfold

theorem odGetD_append_of_ne (pre : List (String × String)) (k v d : String)
    (post : List (String × String)) (h : ∀ p ∈ pre, p.1 ≠ k) :
    odGetD (pre ++ (k, v) :: post) k d = v := by
  induction pre with
  | nil => simp [odGetD]
  | cons q qs ih =>
    obtain ⟨k2, v2⟩ := q
    have hne : k2 ≠ k := h (k2, v2) (List.mem_cons_self _ _)
    simp only [List.cons_append, odGetD, if_neg hne]
    exact ih (fun p hp => h p (List.mem_cons_of_mem _ hp))

/-- C3: the Fuzzy Section Resolver compares the field name against every
heading label (via `compare`, which lowercases both sides), selects the
label with the maximum similarity ratio with ties broken by first-seen
order, returns none exactly when that maximum is strictly below the
threshold, and otherwise returns that winning heading body unnormalized;
a ratio exactly equal to the threshold is accepted. -/
theorem find_secton_spec (name : String) (t : ℚ)
    (sections : List (String × String)) (h : sections ≠ []) :
    ∃ pre e post,
      sections = pre ++ e :: post ∧
      (∀ p ∈ pre, compare p.1 name < compare e.1 name) ∧
      (∀ p ∈ post, compare p.1 name ≤ compare e.1 name) ∧
      find_secton name sections t =
        (if compare e.1 name < t then none else some e.2) := by
  obtain ⟨s, ss, rfl⟩ : ∃ s ss, sections = s :: ss := by
    cases sections with
    | nil => exact absurd rfl h
    | cons s ss => exact ⟨s, ss, rfl⟩
  obtain ⟨pre, e, post, hsplit, hpre, hpost, hfold⟩ :=
    argmax_split (fun p => compare p.1 name) ss s
  refine ⟨pre, e, post, hsplit, hpre, hpost, ?_⟩
  simp only [find_secton, List.map_cons]
  rw [hfold]
  by_cases hc : compare e.1 name < t
  · rw [if_pos hc, if_pos hc]
  · rw [if_neg hc, if_neg hc]
    have hlook : odGetD (s :: ss) e.1 "" = e.2 := by
      rw [hsplit]
      exact odGetD_append_of_ne pre e.1 e.2 "" post
        (fun p hp hpk => absurd (hpk ▸ rfl : compare p.1 name = compare e.1 name)
          (ne_of_lt (hpre p hp)))
    rw [hlook]

/-- C3, witness: a map whose best heading has similarity exactly equal to
the threshold (ratio of `ab` and `ay` is one half), showing that an exact
threshold hit is accepted. -/
theorem find_secton_spec_witness :
    ([("ab", "body")] : List (String × String)) ≠ [] ∧
      (∃ pre e post,
        ([("ab", "body")] : List (String × String)) = pre ++ e :: post ∧
        (∀ p ∈ pre, compare p.1 "ay" < compare e.1 "ay") ∧
        (∀ p ∈ post, compare p.1 "ay" ≤ compare e.1 "ay") ∧
        find_secton "ay" [("ab", "body")] (1 / 2) =
          (if compare e.1 "ay" < 1 / 2 then none else some e.2)) :=
  ⟨by decide, find_secton_spec "ay" (1 / 2) [("ab", "body")] (by decide)⟩

/-! ### Title Resolver -/

/-- C6: the Title Resolver compares the normalized first key of the Section
Map with the normalized target name; at ratio at least three tenths it
returns the capitalized first heading with that heading body, otherwise the
title-cased target name with the preamble body.  The last two conjuncts are
the boundary scenarios of the specification: first heading `Weather` against
target `weather-skill` resolves to the heading, first heading `Overview`
falls back to the title-cased name and the preamble. -/
theorem find_title_info_spec (k v : String) (rest : List (String × String))
    (skill : String) :
    (mkRat 3 10 ≤ compare (norm k) (norm skill) →
      find_title_info ((k, v) :: rest) skill = (caps k, v)) ∧
    (compare (norm k) (norm skill) < mkRat 3 10 →
      find_title_info ((k, v) :: rest) skill =
        (pyTitle (norm skill), odGetD ((k, v) :: rest) "" "")) ∧
    (∀ d p, find_title_info [("Weather", d), ("", p)] "weather-skill" =
      ("Weather", d)) ∧
    (∀ d p, find_title_info [("Overview", d), ("", p)] "weather-skill" =
      ("Weather Skill", p)) := by
  refine ⟨?_, ?_, ?_, ?_⟩
  · intro h
    simp only [find_title_info, if_pos h]
  · intro h
    simp only [find_title_info]
    rw [if_neg (not_le.mpr h)]
  · intro d p
    simp only [find_title_info]
    rw [if_pos (by decide)]
    rfl
  · intro d p
    simp only [find_title_info]
    rw [if_neg (by decide)]
    rfl

/-- C6, witness: the self-titled case of the specification scenario, with
the hypothesis ratio discharged by evaluation (it is seven tenths). -/
theorem find_title_info_spec_witness :
    mkRat 3 10 ≤ compare (norm "Weather") (norm "weather-skill") ∧
      find_title_info [("Weather", "wbody"), ("", "preamble")] "weather-skill" =
        (caps "Weather", "wbody") :=
  ⟨by decide,
    (find_title_info_spec "Weather" "wbody" [("", "preamble")] "weather-skill").1
      (by decide)⟩

/-! ### Sentence Formatter -/

theorem isAlphanum_toUpper (c : Char) :
    (Char.toUpper c).isAlphanum = c.isAlphanum := by
  by_cases h : Char.toNat c ≥ 97 ∧ Char.toNat c ≤ 122
  · obtain ⟨h1, h2⟩ := h
    obtain ⟨n, hn⟩ : ∃ n, c.toNat = n := ⟨_, rfl⟩
    rw [← Char.ofNat_toNat c, hn]
    rw [hn] at h1 h2
    interval_cases n <;> decide
  · have heq : Char.toUpper c = c := by
      simp only [Char.toUpper]
      rw [if_neg h]
    rw [heq]

theorem format_sentL_cons (c : Char) (cs : List Char) :
    format_sentL (c :: cs) =
      (Char.toUpper c :: cs) ++
        (if ((c :: cs).getLastD c).isAlphanum then ['.'] else []) := by
  cases cs with
  | nil =>
    simp only [format_sentL, capsL, List.getLast?_singleton,
      List.getLastD_cons, List.getLastD_nil]
    rw [isAlphanum_toUpper]
    by_cases h : c.isAlphanum
    · simp [h]
    · simp [h]
  | cons d ds =>
    simp only [format_sentL, capsL, List.getLast?_cons_cons,
      List.getLastD_cons]
    have hne : d :: ds ≠ [] := List.cons_ne_nil d ds
    rw [List.getLast?_eq_getLast (d :: ds) hne]
    have hD : ds.getLastD d = (d :: ds).getLast hne := by
      rw [← List.getLastD_cons d d ds, List.getLastD_eq_getLast?,
        List.getLast?_eq_getLast (d :: ds) hne]
      rfl
    rw [hD]
    by_cases h : ((d :: ds).getLast hne).isAlphanum
    · simp [h]
    · simp [h]

/-- C8: the Sentence Formatter returns the empty string unchanged; on a
non-empty string it uppercases exactly the first character, leaves every
other character untouched, and appends one period precisely when the last
character is alphanumeric; in particular the three scenario values of the
specification. -/
theorem format_sent_spec :
    format_sent "" = "" ∧
    (∀ (c : Char) (cs : List Char),
      format_sent ⟨c :: cs⟩ =
        ⟨(Char.toUpper c :: cs) ++
          (if ((c :: cs).getLastD c).isAlphanum then ['.'] else [])⟩) ∧
    format_sent "nasa api key" = "Nasa api key." ∧
    format_sent "already done?" = "Already done?" := by
  refine ⟨by decide, ?_, by decide, by decide⟩
  intro c cs
  exact congrArg String.mk (format_sentL_cons c cs)

/-! ### Example Extractor / Normalizer -/

/-- A one-character string holding the apostrophe. -/
def apoS : String := ⟨[apoChar]⟩

/-- C2: evaluation of the question-mark inference of `parse_example` at the
suffix forms the claim enumerates.  Because the source concatenates the
adjacent literals for the bare `d` suffix and the apostrophe-`re` suffix
into one token (a missing comma), a candidate starting with stem plus bare
`d` or stem plus apostrophe-`re` does not receive a question mark, while
the stem plus apostrophe-`d` form does. -/
theorem parse_example_question_suffixes :
    parse_example "whered is it" = "Whered is it." ∧
    parse_example ("where" ++ apoS ++ "re is it") =
      "Where" ++ apoS ++ "re is it." ∧
    parse_example ("where" ++ apoS ++ "d is it") =
      "Where" ++ apoS ++ "d is it?" := by
  refine ⟨by decide, by decide, by decide⟩

/-- C4: the full extraction pipeline on the scenario document with two
bulleted examples, one with a wake-word prefix and an inferred question. -/
theorem examples_pipeline_eval :
    (find_examples (extract_sections
        "# Examples\n- turn on the lights\n- hey mycroft, what time is it")).map
      parse_example = ["Turn on the lights.", "What time is it?"] := by
  decide

/-! ### Invariants of the Section Map -/

theorem odSet_fst (m : List (String × String)) (k v : String) :
    (odSet m k v).map Prod.fst =
      if k ∈ m.map Prod.fst then m.map Prod.fst else m.map Prod.fst ++ [k] := by
  induction m with
  | nil => simp [odSet]
  | cons p rest ih =>
    obtain ⟨k2, v2⟩ := p
    by_cases hk : k2 = k
    · subst hk
      simp [odSet]
    · simp only [odSet, if_neg hk, List.map_cons, ih]
      by_cases hmem : k ∈ rest.map Prod.fst
      · rw [if_pos hmem, if_pos]
        simp [hmem]
      · rw [if_neg hmem, if_neg]
        · simp
        · simp only [List.map_cons, List.mem_cons]
          rintro (h | h)
          · exact hk h.symm
          · exact hmem h

theorem mem_odSet_fst (m : List (String × String)) (k v k2 : String)
    (h : k2 ∈ m.map Prod.fst) : k2 ∈ (odSet m k v).map Prod.fst := by
  rw [odSet_fst]
  by_cases hmem : k ∈ m.map Prod.fst
  · rwa [if_pos hmem]
  · rw [if_neg hmem]
    exact List.mem_append_left _ h

theorem nodup_odSet_fst (m : List (String × String)) (k v : String)
    (h : (m.map Prod.fst).Nodup) : ((odSet m k v).map Prod.fst).Nodup := by
  rw [odSet_fst]
  by_cases hmem : k ∈ m.map Prod.fst
  · rwa [if_pos hmem]
  · rw [if_neg hmem]
    simp [List.nodup_append, h, hmem]

theorem extractLoop_inv (lines : List (List Char)) :
    ∀ (last : String) (m : List (String × String)),
      "" ∈ m.map Prod.fst → (m.map Prod.fst).Nodup →
      "" ∈ (extractLoop lines last m).map Prod.fst ∧
        ((extractLoop lines last m).map Prod.fst).Nodup := by
  induction lines with
  | nil => intro last m h1 h2; exact ⟨h1, h2⟩
  | cons l ls ih =>
    intro last m h1 h2
    simp only [extractLoop]
    by_cases hh : (pyStripWs l).head? = some '#'
    · rw [if_pos hh]
      exact ih _ _ (mem_odSet_fst m _ "" "" h1) (nodup_odSet_fst m _ "" h2)
    · rw [if_neg hh]
      exact ih _ _ (mem_odSet_fst m _ _ "" h1) (nodup_odSet_fst m _ _ h2)

theorem stripVals_fst (m : List (String × String)) :
    (stripVals m).map Prod.fst = m.map Prod.fst := by
  simp [stripVals, List.map_map]

theorem odPop_spec (m : List (String × String))
    (hnd : (m.map Prod.fst).Nodup) (hmem : "" ∈ m.map Prod.fst) :
    ∃ v r, odPop m "" = some (v, r) ∧ "" ∉ r.map Prod.fst := by
  induction m with
  | nil => simp at hmem
  | cons p rest ih =>
    obtain ⟨k2, v2⟩ := p
    by_cases hk : k2 = ""
    · subst hk
      refine ⟨v2, rest, by simp [odPop], ?_⟩
      simp only [List.map_cons, List.nodup_cons] at hnd
      exact hnd.1
    · simp only [List.map_cons, List.mem_cons] at hmem
      rcases hmem with h | h
      · exact absurd h.symm hk
      · simp only [List.map_cons, List.nodup_cons] at hnd
        obtain ⟨v, r, hpop, hr⟩ := ih hnd.2 h
        refine ⟨v, (k2, v2) :: r, ?_, ?_⟩
        · simp [odPop, hk, hpop]
        · simp only [List.map_cons, List.mem_cons]
          rintro (hx | hx)
          · exact hk hx.symm
          · exact hr hx

theorem getLast?_append_singleton {α : Type} (l : List α) (a : α) :
    (l ++ [a]).getLast? = some a := by
  induction l with
  | nil => rfl
  | cons x xs ih => rw [List.cons_append, List.getLast?_cons, ih]; rfl

/-- C5: for every input document, the Section Map returned by
`extract_sections` has exactly one entry with the empty-string key, and that
entry is the last one in iteration order. -/
theorem extract_sections_preamble_unique_last (doc : String) :
    (((extract_sections doc).map Prod.fst).count "" = 1) ∧
      ∃ v, (extract_sections doc).getLast? = some ("", v) := by
  have hinit : ("" : String) ∈ ([("", "")] : List (String × String)).map Prod.fst := by
    simp
  have hnd : (([("", "")] : List (String × String)).map Prod.fst).Nodup := by simp
  obtain ⟨h1, h2⟩ := extractLoop_inv (splitNl doc.data) "" [("", "")] hinit hnd
  set m := extractLoop (splitNl doc.data) "" [("", "")] with hm
  have h1s : "" ∈ (stripVals m).map Prod.fst := by rwa [stripVals_fst]
  have h2s : ((stripVals m).map Prod.fst).Nodup := by rwa [stripVals_fst]
  obtain ⟨v, r, hpop, hr⟩ := odPop_spec (stripVals m) h2s h1s
  have hshift : extract_sections doc = r ++ [("", v)] := by
    simp only [extract_sections, odShift, ← hm, hpop]
  rw [hshift]
  constructor
  · rw [List.map_append, List.count_append]
    have : (r.map Prod.fst).count "" = 0 := List.count_eq_zero.mpr hr
    simp [this]
  · exact ⟨v, getLast?_append_singleton r ("", v)⟩

/-! ### Documents without headings -/

theorem extractLoop_no_heading (lines : List (List Char)) :
    ∀ acc : String, (∀ l ∈ lines, ¬((pyStripWs l).head? = some '#')) →
      ∃ acc2, extractLoop lines "" [("", acc)] = [("", acc2)] := by
  induction lines with
  | nil => intro acc _; exact ⟨acc, rfl⟩
  | cons l ls ih =>
    intro acc h
    have hl : ¬((pyStripWs l).head? = some '#') := h l (List.mem_cons_self l ls)
    have hls : ∀ x ∈ ls, ¬((pyStripWs x).head? = some '#') :=
      fun x hx => h x (List.mem_cons_of_mem l hx)
    simp only [extractLoop, if_neg hl]
    have hstep : odAppendVal [("", acc)] "" ⟨'\n' :: pyStripWs l⟩ =
        [("", acc ++ ⟨'\n' :: pyStripWs l⟩)] := by
      simp [odAppendVal, odGetD, odSet]
    rw [hstep]
    exact ih _ hls

/-- C7: a document with no heading line produces a Section Map holding only
the preamble entry, and on that map the Fuzzy Section Resolver fails for
every non-empty field name at every positive threshold (in particular at the
thresholds one half and nine tenths used by the assembler). -/
theorem no_heading_sections_spec (doc : String)
    (h : ∀ l ∈ splitNl doc.data, ¬((pyStripWs l).head? = some '#')) :
    (∃ v, extract_sections doc = [("", v)]) ∧
      ∀ (name : String) (t : ℚ), name ≠ "" → 0 < t →
        find_secton name (extract_sections doc) t = none := by
  obtain ⟨acc2, hloop⟩ := extractLoop_no_heading (splitNl doc.data) "" h
  have hes : extract_sections doc = [("", ⟨pyStripWs acc2.data⟩)] := by
    simp only [extract_sections, hloop]
    rfl
  refine ⟨⟨_, hes⟩, ?_⟩
  intro name t hname ht
  rw [hes]
  simp only [find_secton, List.map_cons, List.map_nil, List.foldl_nil]
  rw [compare_empty_left name hname, if_pos ht]

/-- C7, witness at a two-line document with no heading. -/
theorem no_heading_sections_witness :
    (∀ l ∈ splitNl ("hello\nworld").data, ¬((pyStripWs l).head? = some '#')) ∧
      ((∃ v, extract_sections "hello\nworld" = [("", v)]) ∧
        ∀ (name : String) (t : ℚ), name ≠ "" → 0 < t →
          find_secton name (extract_sections "hello\nworld") t = none) :=
  ⟨by decide, no_heading_sections_spec "hello\nworld" (by decide)⟩

/-! ### Heading lines that reset or repeat -/

theorem splitNl_no_nl (l : List Char) (h : '\n' ∉ l) : splitNl l = [l] := by
  induction l with
  | nil => rfl
  | cons c rest ih =>
    have hc : c ≠ '\n' := fun hcc => h (hcc ▸ List.mem_cons_self c rest)
    have hr : '\n' ∉ rest := fun hm => h (List.mem_cons_of_mem c hm)
    simp only [splitNl, if_neg hc, ih hr]

theorem splitNl_append (l1 l2 : List Char) (h : '\n' ∉ l1) :
    splitNl (l1 ++ '\n' :: l2) = l1 :: splitNl l2 := by
  induction l1 with
  | nil => simp [splitNl]
  | cons c rest ih =>
    have hc : c ≠ '\n' := fun hcc => h (hcc ▸ List.mem_cons_self c rest)
    have hr : '\n' ∉ rest := fun hm => h (List.mem_cons_of_mem c hm)
    rw [List.cons_append]
    simp only [splitNl, if_neg hc, List.append_eq]
    rw [ih hr]

theorem dropWhile_dropWhile (p : Char → Bool) (l : List Char) :
    (l.dropWhile p).dropWhile p = l.dropWhile p := by
  induction l with
  | nil => rfl
  | cons a t ih =>
    by_cases hp : p a
    · simp [List.dropWhile_cons, hp, ih]
    · simp [List.dropWhile_cons, hp]

theorem dropRightWhile_append (p : Char → Bool) (l : List Char) :
    ∃ t, dropRightWhile p l ++ t = l ∧ ∀ c ∈ t, p c = true := by
  refine ⟨(l.reverse.takeWhile p).reverse, ?_, ?_⟩
  · rw [dropRightWhile, ← List.reverse_append, List.takeWhile_append_dropWhile,
      List.reverse_reverse]
  · intro c hc
    rw [List.mem_reverse] at hc
    exact List.mem_takeWhile_imp hc

theorem dropWhile_dropRightWhile (p : Char → Bool) (y : List Char)
    (hy : y.dropWhile p = y) :
    (dropRightWhile p y).dropWhile p = dropRightWhile p y := by
  cases hd : dropRightWhile p y with
  | nil => rfl
  | cons a t =>
    obtain ⟨tt, htt, _⟩ := dropRightWhile_append p y
    rw [hd] at htt
    have hpa : p a = false := by
      have hy2 := hy
      rw [← htt, List.cons_append] at hy2
      by_contra hcon
      have hpa2 : p a = true := by
        cases hpb : p a
        · exact absurd hpb hcon
        · rfl
      rw [List.dropWhile_cons, if_pos hpa2] at hy2
      have hlen := congrArg List.length hy2
      rw [List.length_cons] at hlen
      have hle := (List.dropWhile_sublist (l := t ++ tt) p).length_le
      omega
    rw [List.dropWhile_cons, if_neg (by simp [hpa])]

theorem dropRightWhile_idem (p : Char → Bool) (l : List Char) :
    dropRightWhile p (dropRightWhile p l) = dropRightWhile p l := by
  simp only [dropRightWhile, List.reverse_reverse]
  rw [dropWhile_dropWhile]

theorem pyStrip_idem (p : Char → Bool) (l : List Char) :
    pyStrip p (pyStrip p l) = pyStrip p l := by
  simp only [pyStrip]
  rw [dropWhile_dropRightWhile p (l.dropWhile p) (dropWhile_dropWhile p l),
    dropRightWhile_idem]

theorem pyStrip_cons_true (p : Char → Bool) (c : Char) (l : List Char)
    (h : p c = true) : pyStrip p (c :: l) = pyStrip p l := by
  simp only [pyStrip, List.dropWhile_cons, if_pos h]

theorem pyStripWs_nl_strip (l : List Char) :
    pyStripWs ('\n' :: pyStripWs l) = pyStripWs l := by
  unfold pyStripWs
  rw [pyStrip_cons_true isPyWs '\n' _ (by decide)]
  exact pyStrip_idem isPyWs l

theorem extractLoop_cons_heading (l : List Char) (ls : List (List Char))
    (last : String) (m : List (String × String))
    (h : (pyStripWs l).head? = some '#') :
    extractLoop (l :: ls) last m =
      extractLoop ls ⟨pyStrip (fun c => c = '#' || c = ' ') (pyStripWs l)⟩
        (odSet m ⟨pyStrip (fun c => c = '#' || c = ' ') (pyStripWs l)⟩ "") := by
  simp only [extractLoop, if_pos h]

theorem extractLoop_cons_body (l : List Char) (ls : List (List Char))
    (last : String) (m : List (String × String))
    (h : ¬((pyStripWs l).head? = some '#')) :
    extractLoop (l :: ls) last m =
      extractLoop ls last (odAppendVal m last ⟨'\n' :: pyStripWs l⟩) := by
  simp only [extractLoop, if_neg h]

/-- C9: a heading line consisting only of marker characters (a lone hash)
yields the empty-string label and thereby resets the preamble accumulator:
whatever body text `a` was collected under the empty key before that line
is discarded, and the text `b` after it accumulates under the empty key, so
the final preamble entry holds `b` and not `a`. -/
theorem marker_only_heading_resets_preamble (a b : String)
    (ha1 : '\n' ∉ a.data) (hb1 : '\n' ∉ b.data)
    (ha2 : ¬((pyStripWs a.data).head? = some '#'))
    (hb2 : ¬((pyStripWs b.data).head? = some '#')) :
    extract_sections (a ++ "\n#\n" ++ b) = [("", ⟨pyStripWs b.data⟩)] := by
  have hdata : (a ++ "\n#\n" ++ b).data =
      a.data ++ '\n' :: '#' :: '\n' :: b.data := by
    rw [String.data_append, String.data_append]
    simp
  have hmid : splitNl ('#' :: '\n' :: b.data) = ['#'] :: splitNl b.data := by
    simp [splitNl]
  have hsplit : splitNl (a ++ "\n#\n" ++ b).data = [a.data, ['#'], b.data] := by
    rw [hdata, splitNl_append a.data _ ha1, hmid, splitNl_no_nl b.data hb1]
  simp only [extract_sections]
  rw [hsplit, extractLoop_cons_body _ _ _ _ ha2,
    extractLoop_cons_heading _ _ _ _ (by decide)]
  have hsec : (⟨pyStrip (fun c => c = '#' || c = ' ') (pyStripWs ['#'])⟩ : String)
      = "" := by decide
  rw [hsec]
  have h1 : odAppendVal [("", "")] "" ⟨'\n' :: pyStripWs a.data⟩ =
      [("", "" ++ ⟨'\n' :: pyStripWs a.data⟩)] := by
    simp [odAppendVal, odGetD, odSet]
  rw [h1]
  have h2 : odSet [("", "" ++ (⟨'\n' :: pyStripWs a.data⟩ : String))] "" "" =
      [("", "")] := by
    simp [odSet]
  rw [h2, extractLoop_cons_body _ _ _ _ hb2]
  have h3 : odAppendVal [("", "")] "" ⟨'\n' :: pyStripWs b.data⟩ =
      [("", "" ++ ⟨'\n' :: pyStripWs b.data⟩)] := by
    simp [odAppendVal, odGetD, odSet]
  rw [h3]
  have h4 : ("" ++ (⟨'\n' :: pyStripWs b.data⟩ : String)).data =
      '\n' :: pyStripWs b.data := by
    rw [String.data_append]
    rfl
  simp only [extractLoop, stripVals, List.map_cons, List.map_nil, h4]
  rw [pyStripWs_nl_strip]
  simp [odShift, odPop]

/-- C9, witness at concrete preamble texts. -/
theorem marker_only_heading_witness :
    ('\n' ∉ ("pre text").data) ∧ ('\n' ∉ ("post text").data) ∧
      ¬((pyStripWs ("pre text").data).head? = some '#') ∧
      ¬((pyStripWs ("post text").data).head? = some '#') ∧
      extract_sections ("pre text" ++ "\n#\n" ++ "post text") =
        [("", ⟨pyStripWs ("post text").data⟩)] :=
  ⟨by decide, by decide, by decide, by decide,
    marker_only_heading_resets_preamble "pre text" "post text"
      (by decide) (by decide) (by decide) (by decide)⟩

/-- C10: when the same heading label occurs on two heading lines, the second
occurrence starts a fresh empty accumulator at the position of the first, so
the returned Section Map binds the label only to the body following the
second occurrence; the body `b1` following the first occurrence is absent
from the result. -/
theorem duplicate_heading_second_wins (b1 b2 : String)
    (h1 : '\n' ∉ b1.data) (h2 : '\n' ∉ b2.data)
    (h3 : ¬((pyStripWs b1.data).head? = some '#'))
    (h4 : ¬((pyStripWs b2.data).head? = some '#')) :
    extract_sections ("# A\n" ++ b1 ++ "\n# A\n" ++ b2) =
      [("A", ⟨pyStripWs b2.data⟩), ("", "")] := by
  have hdata : ("# A\n" ++ b1 ++ "\n# A\n" ++ b2).data =
      ['#', ' ', 'A'] ++ '\n' ::
        (b1.data ++ '\n' :: (['#', ' ', 'A'] ++ '\n' :: b2.data)) := by
    rw [String.data_append, String.data_append, String.data_append]
    simp
  have hsplit : splitNl ("# A\n" ++ b1 ++ "\n# A\n" ++ b2).data =
      [['#', ' ', 'A'], b1.data, ['#', ' ', 'A'], b2.data] := by
    rw [hdata, splitNl_append _ _ (by decide), splitNl_append b1.data _ h1,
      splitNl_append _ _ (by decide), splitNl_no_nl b2.data h2]
  simp only [extract_sections]
  rw [hsplit, extractLoop_cons_heading _ _ _ _ (by decide)]
  have hsec : (⟨pyStrip (fun c => c = '#' || c = ' ')
      (pyStripWs ['#', ' ', 'A'])⟩ : String) = "A" := by decide
  rw [hsec]
  have e1 : odSet [("", "")] "A" "" = [("", ""), ("A", "")] := by decide
  rw [e1, extractLoop_cons_body _ _ _ _ h3]
  have e2 : odAppendVal [("", ""), ("A", "")] "A" ⟨'\n' :: pyStripWs b1.data⟩ =
      [("", ""), ("A", "" ++ ⟨'\n' :: pyStripWs b1.data⟩)] := by
    simp [odAppendVal, odGetD, odSet]
  rw [e2, extractLoop_cons_heading _ _ _ _ (by decide), hsec]
  have e3 : odSet [("", ""), ("A", "" ++ (⟨'\n' :: pyStripWs b1.data⟩ : String))]
      "A" "" = [("", ""), ("A", "")] := by
    simp [odSet]
  rw [e3, extractLoop_cons_body _ _ _ _ h4]
  have e4 : odAppendVal [("", ""), ("A", "")] "A" ⟨'\n' :: pyStripWs b2.data⟩ =
      [("", ""), ("A", "" ++ ⟨'\n' :: pyStripWs b2.data⟩)] := by
    simp [odAppendVal, odGetD, odSet]
  rw [e4]
  have e5 : ("" ++ (⟨'\n' :: pyStripWs b2.data⟩ : String)).data =
      '\n' :: pyStripWs b2.data := by
    rw [String.data_append]
    rfl
  simp only [extractLoop, stripVals, List.map_cons, List.map_nil, e5]
  rw [pyStripWs_nl_strip]
  have e6 : (⟨pyStripWs ([] : List Char)⟩ : String) = "" := by decide
  simp [odShift, odPop, e6]

/-- C10, witness at concrete bodies. -/
theorem duplicate_heading_witness :
    ('\n' ∉ ("first").data) ∧ ('\n' ∉ ("second").data) ∧
      ¬((pyStripWs ("first").data).head? = some '#') ∧
      ¬((pyStripWs ("second").data).head? = some '#') ∧
      extract_sections ("# A\n" ++ "first" ++ "\n# A\n" ++ "second") =
        [("A", ⟨pyStripWs ("second").data⟩), ("", "")] :=
  ⟨by decide, by decide, by decide, by decide,
    duplicate_heading_second_wins "first" "second"
      (by decide) (by decide) (by decide) (by decide)⟩

end RepoInfo
